import Mathlib

/-!
Verification of the DirShell terminal-emulation core.

The screen model embeds the Qt text document used by `TerminalWidget`:
an ordered list of lines (blocks) plus a cursor given as a pair
(line index, column index).  `handle_output` is embedded as the
fuel-indexed interpreter `runF` (the fuel equals the fragment length, and
each loop iteration consumes at least one character, so the fuel never
runs out); `TerminalTab._extract_directories` is embedded as
`extractDirs`.  The keyboard path (`keyPressEvent`, `send_command`) is
embedded as pure functions from input events and the accumulated
command buffer to the bytes written to the PTY, the new buffer, and the
emitted command events.
-/

namespace DirShell

/-- Cursor = (block number, offset inside the block), 0-based. -/
structure Cursor where
  line : Nat
  col  : Nat
deriving Repr, DecidableEq

/-- The Qt document: ordered blocks of characters plus the cursor. -/
structure Buf where
  lines : List (List Char)
  cur   : Cursor
deriving Repr, DecidableEq

/-- The line the cursor currently sits on (empty when out of range). -/
def curLine (b : Buf) : List Char := b.lines.getD b.cur.line []

/-- `\r`: `_cursor_to_line_start` - move to the start of the block. -/
def crOp (b : Buf) : Buf := ⟨b.lines, ⟨b.cur.line, 0⟩⟩

/-- `\n`: `_cursor_to_line_end` then `insertBlock` - a fresh empty block
after the current one, cursor at its start. -/
def nlOp (b : Buf) : Buf :=
  ⟨b.lines.take (b.cur.line + 1) ++ [[]] ++ b.lines.drop (b.cur.line + 1),
   ⟨b.cur.line + 1, 0⟩⟩

/-- `\b`/DEL: `if cursor.position() > 0: cursor.deletePreviousChar()`.
The guard is on the global document position, so at column 0 of a
non-first block the previous character is the block separator and
`deletePreviousChar` joins the block with the previous one. -/
def bspOp (b : Buf) : Buf :=
  if 0 < b.cur.col then
    ⟨b.lines.set b.cur.line ((curLine b).eraseIdx (b.cur.col - 1)),
     ⟨b.cur.line, b.cur.col - 1⟩⟩
  else if 0 < b.cur.line then
    ⟨b.lines.take (b.cur.line - 1)
       ++ [b.lines.getD (b.cur.line - 1) [] ++ curLine b]
       ++ b.lines.drop (b.cur.line + 1),
     ⟨b.cur.line - 1, (b.lines.getD (b.cur.line - 1) []).length⟩⟩
  else b

/-- Qt's paragraph separator U+2029: `insertText` turns it into a block
separator rather than an in-line character. -/
def sepChar : Char := '\u2029'

/-- Printable path of `handle_output`: select one position to the right
(`KeepAnchor`); if the selection exists and is not the block separator,
remove it; then insert the character.  Net effect: replace in place when
the cursor sits on a character, append otherwise, cursor advances. -/
def writeOp (b : Buf) (c : Char) : Buf :=
  let l := b.cur.line
  let co := b.cur.col
  let line := curLine b
  if c = sepChar then
    let line' := if co < line.length then line.eraseIdx co else line
    ⟨b.lines.take l ++ [line'.take co, line'.drop co] ++ b.lines.drop (l + 1),
     ⟨l + 1, 0⟩⟩
  else if co < line.length then
    ⟨b.lines.set l (line.set co c), ⟨l, co + 1⟩⟩
  else
    ⟨b.lines.set l (line ++ [c]), ⟨l, co + 1⟩⟩

/-- CSI accumulation loop: gather characters until the first alphabetic
terminator (`text[i].isalpha()`); `none` when the fragment ends first
(`break` in the code).  The code's `str.isalpha()` is Unicode-wide
while `Char.isAlpha` covers the ASCII letters; the two coincide on the
7-bit range, and the theorems that quantify over CSI parameters confine
them to that range (`ascii7`). -/
def splitCsi : List Char → Option (List Char × Char × List Char)
  | [] => none
  | c :: r =>
    if c.isAlpha then some ([], c, r)
    else
      match splitCsi r with
      | none => none
      | some (p, t, r2) => some (c :: p, t, r2)

/-- OSC skip loop: consume until a bare BEL or `ESC \`; `none` when the
fragment ends without a terminator.  The `ESC \` test mirrors
`text[i] == ESC and i+1 < len(text) and text[i+1] == "\\"`; an `ESC`
not followed by a backslash is consumed as payload. -/
def oscSkip : List Char → Option (List Char)
  | [] => none
  | c :: r =>
    if c = '\x07' then some r
    else if c = '\x1b' ∧ r.head? = some '\\' then some r.tail
    else oscSkip r

/-- `char in ("\b", "\x7f")`. -/
def isBsp (c : Char) : Bool := c = '\x08' ∨ c = '\x7f'

/-- Python whitespace stripped by `str.strip()`. -/
def pyWs (c : Char) : Bool :=
  c = ' ' ∨ c = '\t' ∨ c = '\n' ∨ c = '\x0d' ∨ c = '\x0b' ∨ c = '\x0c'

/-- `str.strip()`. -/
def pyStrip (l : List Char) : List Char :=
  ((l.dropWhile pyWs).reverse.dropWhile pyWs).reverse

/-- Decimal value of a digit string. -/
def digitsVal (l : List Char) : Nat :=
  l.foldl (fun a c => a * 10 + (c.toNat - 48)) 0

/-- Python `int()` on the strings reachable from CSI parameters:
optional surrounding whitespace, optional sign, nonempty digit run. -/
def pyInt (l : List Char) : Option Int :=
  let s := pyStrip l
  match s with
  | '-' :: d =>
    if d ≠ [] ∧ d.all Char.isDigit then some (-(digitsVal d : Int)) else none
  | '+' :: d =>
    if d ≠ [] ∧ d.all Char.isDigit then some (digitsVal d : Int) else none
  | d =>
    if d ≠ [] ∧ d.all Char.isDigit then some (digitsVal d : Int) else none

/-- `params.split(";")`. -/
def splitSemi : List Char → List (List Char)
  | [] => [[]]
  | c :: r =>
    if c = ';' then [] :: splitSemi r
    else
      match splitSemi r with
      | [] => [[c]]
      | g :: gs => (c :: g) :: gs

/-- Row/column parsing of `ESC [ row ; col H`: defaults `(1, 1)`, only a
two-part parameter list with both parts parsing as integers is used,
each clamped to a minimum of 1 (a `ValueError` resets both). -/
def parseRowCol (params : List Char) : Nat × Nat :=
  if params = [] then (1, 1)
  else
    match splitSemi params with
    | [a, b] =>
      match pyInt a, pyInt b with
      | some x, some y => ((max x 1).toNat, (max y 1).toNat)
      | _, _ => (1, 1)
    | _ => (1, 1)

/-- `while document.blockCount() < row:` append an empty block at the
end of the document. -/
def padLines (lines : List (List Char)) (row : Nat) : List (List Char) :=
  lines ++ List.replicate (row - lines.length) []

/-- Qt `movePosition(Right, MoveAnchor, n)`: one step at a time; a step
at the end of a non-last block crosses onto the next block; the cursor
stays where it got to when a step fails at the end of the document. -/
def moveRightN (lines : List (List Char)) : Cursor → Nat → Cursor
  | cu, 0 => cu
  | cu, n + 1 =>
    if cu.col < (lines.getD cu.line []).length then
      moveRightN lines ⟨cu.line, cu.col + 1⟩ n
    else if cu.line + 1 < lines.length then
      moveRightN lines ⟨cu.line + 1, 0⟩ n
    else cu

/-- `ESC [ row ; col H` / `f`: extend the document to `row` blocks, then
position at the start of block `row-1` and move right `col-1` steps. -/
def cupOp (b : Buf) (params : List Char) : Buf :=
  let rc := parseRowCol params
  let lines := padLines b.lines rc.1
  ⟨lines, moveRightN lines ⟨rc.1 - 1, 0⟩ (rc.2 - 1)⟩

/-- `ESC [ K` erase in line; the cursor ends at the start of the removed
selection. -/
def eraseLineOp (b : Buf) (params : List Char) : Buf :=
  let mode := if params = [] then ['0'] else params
  let l := b.cur.line
  let co := b.cur.col
  let line := curLine b
  if mode = ['0'] then ⟨b.lines.set l (line.take co), ⟨l, co⟩⟩
  else if mode = ['1'] then ⟨b.lines.set l (line.drop co), ⟨l, 0⟩⟩
  else if mode = ['2'] then ⟨b.lines.set l [], ⟨l, 0⟩⟩
  else b

/-- `ESC [ J` erase in display; modes 2 and 3 call `clear()` leaving a
single empty block with the cursor at the origin. -/
def eraseDispOp (b : Buf) (params : List Char) : Buf :=
  let mode := if params = [] then ['0'] else params
  let l := b.cur.line
  let co := b.cur.col
  let line := curLine b
  if mode = ['0'] then ⟨b.lines.take l ++ [line.take co], ⟨l, co⟩⟩
  else if mode = ['1'] then ⟨line.drop co :: b.lines.drop (l + 1), ⟨0, 0⟩⟩
  else if mode = ['2'] ∨ mode = ['3'] then ⟨[[]], ⟨0, 0⟩⟩
  else b

/-- Dispatch on the CSI terminator; any other terminator is a no-op. -/
def csiDispatch (b : Buf) (params : List Char) (t : Char) : Buf :=
  if t = 'K' then eraseLineOp b params
  else if t = 'J' then eraseDispOp b params
  else if t = 'H' ∨ t = 'f' then cupOp b params
  else b

/-- Input left after one iteration of the `handle_output` loop headed by
character `c` with `rest` following it; `none` when the iteration hits
the end of the fragment inside a sequence (`break`: the remainder is
dropped, no state is carried to the next fragment). -/
def stepRest (c : Char) (rest : List Char) : Option (List Char) :=
  if c = '\x0d' ∨ c = '\x0a' ∨ c = '\x07' then some rest
  else if isBsp c then
    match rest with
    | c1 :: c2 :: r => if c1 = ' ' ∧ isBsp c2 then some r else some rest
    | _ => some rest
  else if c = '\x1b' then
    match rest with
    | [] => none
    | d :: r =>
      if d = '[' then
        match splitCsi r with
        | none => none
        | some (_, _, r2) => some r2
      else if d = ']' then oscSkip r
      else some r
  else some rest

/-- Buffer after one iteration of the loop (on a `break` iteration the
buffer is returned unchanged by `runF` and this value is unused). -/
def stepBuf (b : Buf) (c : Char) (rest : List Char) : Buf :=
  if c = '\x0d' then crOp b
  else if c = '\x0a' then nlOp b
  else if isBsp c then bspOp b
  else if c = '\x07' then b
  else if c = '\x1b' then
    match rest with
    | [] => b
    | d :: r =>
      if d = '[' then
        match splitCsi r with
        | none => b
        | some (p, t, _) => csiDispatch b p t
      else b
  else writeOp b c

/-- `handle_output` with explicit fuel; every iteration consumes at
least one character, so fuel equal to the fragment length suffices. -/
def runF : Nat → Buf → List Char → Buf
  | 0, b, _ => b
  | _ + 1, b, [] => b
  | n + 1, b, c :: rest =>
    match stepRest c rest with
    | none => b
    | some s' => runF n (stepBuf b c rest) s'

/-- `TerminalWidget.handle_output` on one fragment. -/
def run (b : Buf) (s : List Char) : Buf := runF s.length b s

/-- Feeding fragments one at a time. -/
def runFrags (b : Buf) (frags : List (List Char)) : Buf := frags.foldl run b

/-- A loop iteration headed by `c` is boundary-independent: its effect
and the input it consumes do not change when more input is appended
after `rest`.  This fails exactly where `handle_output` looks at the end
of the fragment: a `\b`/DEL whose three-character erase-coalescing
window would extend past the fragment, and an `ESC` whose control
sequence is not terminated inside the fragment. -/
def stepOk (c : Char) (rest : List Char) : Bool :=
  if isBsp c then
    match rest with
    | _ :: _ :: _ => true
    | [c1] => c1 ≠ ' '
    | [] => false
  else if c = '\x1b' then
    match rest with
    | [] => false
    | d :: r =>
      if d = '[' then (splitCsi r).isSome
      else if d = ']' then (oscSkip r).isSome
      else true
  else true

/-- Fuel-indexed self-containedness of a fragment: every iteration of
the `handle_output` loop on it is boundary-independent. -/
def cleanF : Nat → List Char → Bool
  | 0, s => s.isEmpty
  | _ + 1, [] => true
  | n + 1, c :: rest =>
    stepOk c rest &&
      match stepRest c rest with
      | none => false
      | some s' => cleanF n s'

/-- Self-containedness of a fragment for the interpreter. -/
def clean (s : List Char) : Bool := cleanF s.length s

/-- All characters of the fragment lie in the 7-bit ASCII range.  On
this range `Char.isAlpha` coincides with Python's Unicode-wide
`str.isalpha()`, so the embedding's control flow (in particular where a
CSI sequence terminates) is exact for such fragments. -/
def ascii7 (s : List Char) : Bool := s.all (fun c => c.toNat < 128)

/-! ## Directory-report extractor (`TerminalTab._extract_directories`) -/

/-- `OSC_DIR_PREFIX = "\x1b]1337;CurrentDir="`. -/
def marker : List Char :=
  ['\x1b', ']', '1', '3', '3', '7', ';',
   'C', 'u', 'r', 'r', 'e', 'n', 't', 'D', 'i', 'r', '=']

/-- `text.find(marker, index)` followed by `start += len(marker)`:
leftmost occurrence of the marker, returning the suffix after it. -/
def findMarker : List Char → Option (List Char)
  | [] => none
  | c :: r =>
    if marker.isPrefixOf (c :: r) then some ((c :: r).drop marker.length)
    else findMarker r

/-- `_find_osc_terminator`: scan for a bare BEL or `ESC \`, returning
the content before the terminator and the suffix after it; an `ESC` not
followed by `\` (or at the end) is ordinary content. -/
def findTerm : List Char → Option (List Char × List Char)
  | [] => none
  | c :: r =>
    if c = '\x07' then some ([], r)
    else if c = '\x1b' ∧ r.head? = some '\\' then some ([], r.tail)
    else
      match findTerm r with
      | none => none
      | some (d, r2) => some (c :: d, r2)

/-- `_extract_directories` with explicit fuel; every found report
consumes at least the marker plus a terminator, so fuel equal to the
fragment length suffices. -/
def extractDirsF : Nat → List Char → List (List Char)
  | 0, _ => []
  | n + 1, s =>
    match findMarker s with
    | none => []
    | some r =>
      match findTerm r with
      | none => []
      | some (d, r2) => d :: extractDirsF n r2

/-- `TerminalTab._extract_directories` on one fragment. -/
def extractDirs (s : List Char) : List (List Char) := extractDirsF s.length s

/-- Directory-change events over a fragment sequence: the scan is
fragment-local, each fragment contributes its own events in order. -/
def extractFrags (frags : List (List Char)) : List (List Char) :=
  (frags.map extractDirs).flatten

/-- No nonempty suffix of `s` is a (necessarily partial) beginning of
the directory marker: appending further input cannot complete a marker
occurrence that straddles the fragment boundary. -/
def noPartialMarker : List Char → Bool
  | [] => true
  | c :: r => !((c :: r).isPrefixOf marker) && noPartialMarker r

/-- Fuel-indexed self-containedness of a fragment for the extractor:
every marker occurrence is terminated inside the fragment and the
fragment does not end in a partial marker. -/
def extractCleanF : Nat → List Char → Bool
  | 0, s => noPartialMarker s
  | n + 1, s =>
    match findMarker s with
    | none => noPartialMarker s
    | some r =>
      match findTerm r with
      | none => false
      | some (_, r2) => extractCleanF n r2

/-- Self-containedness of a fragment for the extractor. -/
def extractClean (s : List Char) : Bool := extractCleanF s.length s

/-! ## Command recorder and keyboard path -/

/-- `_record_command`: strip, emit only when non-empty. -/
def recordCommand (command : List Char) : List (List Char) :=
  let c := pyStrip command
  if c = [] then [] else [c]

/-- `command.endswith("\n")`. -/
def endsWithNL (l : List Char) : Bool :=
  match l.getLast? with
  | some c => c = '\x0a'
  | none => false

/-- `TerminalWidget.send_command`: the bytes written to the PTY and the
command-submitted events. -/
def send_command (command : List Char) (add_newline : Bool) :
    List Char × List (List Char) :=
  (command ++ (if add_newline ∧ ¬ endsWithNL command then ['\x0a'] else []),
   if add_newline then recordCommand command else [])

/-- The non-backspace keys of `special_mappings`. -/
inductive SpecialKey where
  | tab | left | right | up | down | home | kend
  | pageUp | pageDown | del | insert | escape
deriving Repr, DecidableEq

/-- Byte sequences of `special_mappings`. -/
def specialBytes : SpecialKey → List Char
  | .tab => ['\t']
  | .left => ['\x1b', '[', 'D']
  | .right => ['\x1b', '[', 'C']
  | .up => ['\x1b', '[', 'A']
  | .down => ['\x1b', '[', 'B']
  | .home => ['\x1b', '[', 'H']
  | .kend => ['\x1b', '[', 'F']
  | .pageUp => ['\x1b', '[', '5', '~']
  | .pageDown => ['\x1b', '[', '6', '~']
  | .del => ['\x1b', '[', '3', '~']
  | .insert => ['\x1b', '[', '2', '~']
  | .escape => ['\x1b']

/-- The mutually exclusive branches of `keyPressEvent`, in the order the
code tests them: copy binding (with or without an active selection),
paste (with the clipboard text), Enter/Return, Backspace, a key of
`special_mappings`, and finally a key whose `event.text()` payload is
forwarded. -/
inductive KeyInput where
  | copy (hasSelection : Bool)
  | paste (clip : List Char)
  | enter
  | backspace
  | special (k : SpecialKey)
  | text (t : List Char)
deriving Repr, DecidableEq

/-- Observable outcome of one `keyPressEvent` call: bytes written to the
PTY master, the new `_input_buffer`, and the `command_executed` events. -/
structure KeyResult where
  written : List Char
  buffer  : List Char
  events  : List (List Char)
deriving Repr, DecidableEq

/-- `TerminalWidget.keyPressEvent` on the accumulated input buffer. -/
def keyPressEvent (buf : List Char) : KeyInput → KeyResult
  | .copy sel => if sel then ⟨[], buf, []⟩ else ⟨['\x03'], [], []⟩
  | .paste t => if t = [] then ⟨[], buf, []⟩ else ⟨t, buf ++ t, []⟩
  | .enter => ⟨['\x0d'], [], recordCommand buf⟩
  | .backspace => ⟨['\x08'], buf.dropLast, []⟩
  | .special k => ⟨specialBytes k, buf, []⟩
  | .text t => if t = [] then ⟨[], buf, []⟩ else ⟨t, buf ++ t, []⟩

/-- Control characters in the sense of the spec's "printable,
non-control": the C0 range plus DEL. -/
def isCtrl (c : Char) : Bool := c.toNat < 32 ∨ c.toNat = 127

/-- The text payloads an input event appends to the command buffer: the
clipboard text of a paste and the `event.text()` of a key press.  The
event is control-free when those payloads contain no control
character. -/
def inputCtrlFree : KeyInput → Bool
  | .paste t => t.all (fun c => !(isCtrl c))
  | .text t => t.all (fun c => !(isCtrl c))
  | _ => true

/-! ## Fragment-composition lemmas for the interpreter -/

theorem splitCsi_length {r : List Char} :
    ∀ {p t r2}, splitCsi r = some (p, t, r2) → r2.length < r.length := by
  induction r with
  | nil => intro p t r2 h; simp [splitCsi] at h
  | cons c r ih =>
    intro p t r2 h
    simp only [splitCsi] at h
    by_cases hc : c.isAlpha
    · rw [if_pos hc] at h
      simp only [Option.some.injEq, Prod.mk.injEq] at h
      obtain ⟨-, -, rfl⟩ := h
      simp
    · rw [if_neg hc] at h
      cases hsp : splitCsi r with
      | none => rw [hsp] at h; simp at h
      | some ptr =>
        obtain ⟨p', t', r2'⟩ := ptr
        rw [hsp] at h
        simp only [Option.some.injEq, Prod.mk.injEq] at h
        obtain ⟨-, -, rfl⟩ := h
        exact Nat.lt_succ_of_lt (ih hsp)

theorem splitCsi_append {r : List Char} (u : List Char) :
    ∀ {p t r2}, splitCsi r = some (p, t, r2) →
      splitCsi (r ++ u) = some (p, t, r2 ++ u) := by
  induction r with
  | nil => intro p t r2 h; simp [splitCsi] at h
  | cons c r ih =>
    intro p t r2 h
    simp only [splitCsi] at h
    show splitCsi (c :: (r ++ u)) = _
    simp only [splitCsi]
    by_cases hc : c.isAlpha
    · rw [if_pos hc] at h ⊢
      simp only [Option.some.injEq, Prod.mk.injEq] at h
      obtain ⟨rfl, rfl, rfl⟩ := h
      rfl
    · rw [if_neg hc] at h ⊢
      cases hsp : splitCsi r with
      | none => rw [hsp] at h; simp at h
      | some ptr =>
        obtain ⟨p', t', r2'⟩ := ptr
        rw [hsp] at h
        simp only [Option.some.injEq, Prod.mk.injEq] at h
        obtain ⟨rfl, rfl, rfl⟩ := h
        rw [ih hsp]

theorem oscSkip_length {r : List Char} :
    ∀ {r2}, oscSkip r = some r2 → r2.length < r.length := by
  induction r with
  | nil => intro r2 h; simp [oscSkip] at h
  | cons c r ih =>
    intro r2 h
    simp only [oscSkip] at h
    by_cases h7 : c = '\x07'
    · rw [if_pos h7] at h
      simp only [Option.some.injEq] at h
      subst h; simp
    · rw [if_neg h7] at h
      by_cases he : c = '\x1b' ∧ r.head? = some '\\'
      · rw [if_pos he] at h
        simp only [Option.some.injEq] at h
        subst h
        have : r.tail.length ≤ r.length := by cases r <;> simp
        simp only [List.length_cons]
        omega
      · rw [if_neg he] at h
        exact Nat.lt_succ_of_lt (ih h)

theorem oscSkip_append {r : List Char} (u : List Char) :
    ∀ {r2}, oscSkip r = some r2 → oscSkip (r ++ u) = some (r2 ++ u) := by
  induction r with
  | nil => intro r2 h; simp [oscSkip] at h
  | cons c r ih =>
    intro r2 h
    simp only [oscSkip] at h
    show oscSkip (c :: (r ++ u)) = _
    simp only [oscSkip]
    by_cases h7 : c = '\x07'
    · rw [if_pos h7] at h ⊢
      simp only [Option.some.injEq] at h
      subst h; rfl
    · rw [if_neg h7] at h ⊢
      by_cases he : c = '\x1b' ∧ r.head? = some '\\'
      · obtain ⟨he1, he2⟩ := he
        cases r with
        | nil => simp at he2
        | cons d rt =>
          simp only [List.head?_cons, Option.some.injEq] at he2
          subst he2
          rw [if_pos ⟨he1, rfl⟩] at h
          rw [if_pos ⟨he1, by simp⟩]
          simp only [Option.some.injEq] at h
          subst h; rfl
      · rw [if_neg he] at h
        have hne : ¬(c = '\x1b' ∧ (r ++ u).head? = some '\\') := by
          rintro ⟨hc, hh⟩
          cases r with
          | nil => simp [oscSkip] at h
          | cons d rt =>
            simp only [List.cons_append, List.head?_cons, Option.some.injEq] at hh
            exact he ⟨hc, by simp [hh]⟩
        rw [if_neg hne]
        exact ih h

theorem stepRest_length {c : Char} {rest s' : List Char}
    (h : stepRest c rest = some s') : s'.length ≤ rest.length := by
  unfold stepRest at h
  by_cases h1 : c = '\x0d' ∨ c = '\x0a' ∨ c = '\x07'
  · rw [if_pos h1] at h
    simp only [Option.some.injEq] at h; subst h; exact le_rfl
  · rw [if_neg h1] at h
    by_cases h2 : isBsp c = true
    · rw [if_pos h2] at h
      rcases rest with _ | ⟨c1, _ | ⟨c2, r⟩⟩
      · simp only [Option.some.injEq] at h; subst h; exact le_rfl
      · simp only [Option.some.injEq] at h; subst h; exact le_rfl
      · have h' : (if c1 = ' ' ∧ isBsp c2 = true then some r
            else some (c1 :: c2 :: r)) = some s' := h
        by_cases hcc : c1 = ' ' ∧ isBsp c2 = true
        · rw [if_pos hcc] at h'
          simp only [Option.some.injEq] at h'; subst h'
          simp only [List.length_cons]; omega
        · rw [if_neg hcc] at h'
          simp only [Option.some.injEq] at h'; subst h'; exact le_rfl
    · rw [if_neg h2] at h
      by_cases h3 : c = '\x1b'
      · rw [if_pos h3] at h
        rcases rest with _ | ⟨d, r⟩
        · simp at h
        · have h' : (if d = '[' then
              (match splitCsi r with
               | none => none
               | some (_, _, r2) => some r2)
              else if d = ']' then oscSkip r else some r) = some s' := h
          by_cases hd : d = '['
          · rw [if_pos hd] at h'
            cases hsp : splitCsi r with
            | none => rw [hsp] at h'; simp at h'
            | some ptr =>
              obtain ⟨p, t, r2⟩ := ptr
              rw [hsp] at h'
              simp only [Option.some.injEq] at h'; subst h'
              have := splitCsi_length hsp
              simp only [List.length_cons]; omega
          · by_cases hd2 : d = ']'
            · rw [if_neg hd, if_pos hd2] at h'
              have := oscSkip_length h'
              simp only [List.length_cons]; omega
            · rw [if_neg hd, if_neg hd2] at h'
              simp only [Option.some.injEq] at h'; subst h'; simp
      · rw [if_neg h3] at h
        simp only [Option.some.injEq] at h; subst h; exact le_rfl

theorem runF_nil (n : Nat) (b : Buf) : runF n b [] = b := by
  cases n <;> rfl

theorem cleanF_nil (n : Nat) : cleanF n [] = true := by
  cases n <;> rfl

theorem runF_fuel : ∀ (n : Nat) {m : Nat} {b : Buf} {s : List Char},
    s.length ≤ n → s.length ≤ m → runF n b s = runF m b s := by
  intro n
  induction n with
  | zero =>
    intro m b s hn _
    have hs : s = [] := List.eq_nil_of_length_eq_zero (Nat.le_zero.mp hn)
    subst hs
    rw [runF_nil, runF_nil]
  | succ n ih =>
    intro m b s hn hm
    cases s with
    | nil => rw [runF_nil, runF_nil]
    | cons c rest =>
      obtain ⟨m', rfl⟩ : ∃ m', m = m' + 1 := by
        refine ⟨m - 1, ?_⟩
        simp only [List.length_cons] at hm
        omega
      simp only [runF]
      cases hsr : stepRest c rest with
      | none => rfl
      | some s' =>
        have hl := stepRest_length hsr
        simp only [List.length_cons] at hn hm
        exact ih (by omega) (by omega)

theorem run_cons (b : Buf) (c : Char) (rest : List Char) :
    run b (c :: rest) =
      match stepRest c rest with
      | none => b
      | some s' => run (stepBuf b c rest) s' := by
  show runF (rest.length + 1) b (c :: rest) = _
  simp only [runF]
  cases hsr : stepRest c rest with
  | none => rfl
  | some s' => exact runF_fuel rest.length (stepRest_length hsr) le_rfl

theorem cleanF_fuel : ∀ (n : Nat) {m : Nat} {s : List Char},
    s.length ≤ n → s.length ≤ m → cleanF n s = cleanF m s := by
  intro n
  induction n with
  | zero =>
    intro m s hn _
    have hs : s = [] := List.eq_nil_of_length_eq_zero (Nat.le_zero.mp hn)
    subst hs
    rw [cleanF_nil, cleanF_nil]
  | succ n ih =>
    intro m s hn hm
    cases s with
    | nil => rw [cleanF_nil, cleanF_nil]
    | cons c rest =>
      obtain ⟨m', rfl⟩ : ∃ m', m = m' + 1 := by
        refine ⟨m - 1, ?_⟩
        simp only [List.length_cons] at hm
        omega
      simp only [cleanF]
      cases hsr : stepRest c rest with
      | none => rfl
      | some s' =>
        have hl := stepRest_length hsr
        simp only [List.length_cons] at hn hm
        show (stepOk c rest && cleanF n s') = (stepOk c rest && cleanF m' s')
        rw [ih (m := m') (s := s') (by omega) (by omega)]

theorem stepRest_append {c : Char} {rest s' : List Char} (u : List Char)
    (hok : stepOk c rest = true) (h : stepRest c rest = some s') :
    stepRest c (rest ++ u) = some (s' ++ u) := by
  unfold stepOk at hok
  unfold stepRest at h ⊢
  by_cases h1 : c = '\x0d' ∨ c = '\x0a' ∨ c = '\x07'
  · rw [if_pos h1] at h ⊢
    simp only [Option.some.injEq] at h; subst h; rfl
  · rw [if_neg h1] at h ⊢
    by_cases h2 : isBsp c = true
    · rw [if_pos h2] at h hok ⊢
      rcases rest with _ | ⟨c1, _ | ⟨c2, r⟩⟩
      · simp at hok
      · simp only [Option.some.injEq] at h; subst h
        have hok' : decide (c1 ≠ ' ') = true := hok
        have hc1 : c1 ≠ ' ' := of_decide_eq_true hok'
        cases u with
        | nil => rfl
        | cons c2 u' =>
          have hne : ¬(c1 = ' ' ∧ isBsp c2 = true) := by
            rintro ⟨rfl, -⟩
            exact hc1 rfl
          show (if c1 = ' ' ∧ isBsp c2 = true then some u'
            else some (c1 :: c2 :: u')) = some ([c1] ++ (c2 :: u'))
          rw [if_neg hne]
          rfl
      · have h' : (if c1 = ' ' ∧ isBsp c2 = true then some r
            else some (c1 :: c2 :: r)) = some s' := h
        show (if c1 = ' ' ∧ isBsp c2 = true then some (r ++ u)
          else some (c1 :: c2 :: (r ++ u))) = _
        by_cases hcc : c1 = ' ' ∧ isBsp c2 = true
        · rw [if_pos hcc] at h'
          simp only [Option.some.injEq] at h'; subst h'
          rw [if_pos hcc]
        · rw [if_neg hcc] at h'
          simp only [Option.some.injEq] at h'; subst h'
          rw [if_neg hcc]
          rfl
    · rw [if_neg h2] at h hok ⊢
      by_cases h3 : c = '\x1b'
      · rw [if_pos h3] at h hok ⊢
        rcases rest with _ | ⟨d, r⟩
        · simp at hok
        · have h' : (if d = '[' then
              (match splitCsi r with
               | none => none
               | some (_, _, r2) => some r2)
              else if d = ']' then oscSkip r else some r) = some s' := h
          have hok' : (if d = '[' then (splitCsi r).isSome
              else if d = ']' then (oscSkip r).isSome else true) = true := hok
          show (if d = '[' then
              (match splitCsi (r ++ u) with
               | none => none
               | some (_, _, r2) => some r2)
              else if d = ']' then oscSkip (r ++ u) else some (r ++ u)) = _
          by_cases hd : d = '['
          · rw [if_pos hd] at h' hok' ⊢
            cases hsp : splitCsi r with
            | none => rw [hsp] at hok'; simp at hok'
            | some ptr =>
              obtain ⟨p, t, r2⟩ := ptr
              rw [hsp] at h'
              simp only [Option.some.injEq] at h'; subst h'
              rw [splitCsi_append u hsp]
          · by_cases hd2 : d = ']'
            · rw [if_neg hd, if_pos hd2] at h' ⊢
              exact oscSkip_append u h'
            · rw [if_neg hd, if_neg hd2] at h' ⊢
              simp only [Option.some.injEq] at h'; subst h'; rfl
      · rw [if_neg h3] at h ⊢
        simp only [Option.some.injEq] at h; subst h; rfl

theorem stepBuf_append {c : Char} {rest : List Char} (u : List Char) (b : Buf)
    (hok : stepOk c rest = true) : stepBuf b c (rest ++ u) = stepBuf b c rest := by
  unfold stepOk at hok
  unfold stepBuf
  by_cases hcr : c = '\x0d'
  · rw [if_pos hcr, if_pos hcr]
  · rw [if_neg hcr, if_neg hcr]
    by_cases hlf : c = '\x0a'
    · rw [if_pos hlf, if_pos hlf]
    · rw [if_neg hlf, if_neg hlf]
      by_cases h2 : isBsp c = true
      · rw [if_pos h2, if_pos h2]
      · rw [if_neg h2, if_neg h2]
        by_cases h7 : c = '\x07'
        · rw [if_pos h7, if_pos h7]
        · rw [if_neg h7, if_neg h7]
          by_cases h3 : c = '\x1b'
          · rw [if_pos h3, if_pos h3]
            rw [if_neg h2, if_pos h3] at hok
            rcases rest with _ | ⟨d, r⟩
            · simp at hok
            · have hok' : (if d = '[' then (splitCsi r).isSome
                  else if d = ']' then (oscSkip r).isSome else true) = true := hok
              show (if d = '[' then
                  (match splitCsi (r ++ u) with
                   | none => b
                   | some (p, t, _) => csiDispatch b p t)
                  else b) =
                (if d = '[' then
                  (match splitCsi r with
                   | none => b
                   | some (p, t, _) => csiDispatch b p t)
                  else b)
              by_cases hd : d = '['
              · rw [if_pos hd, if_pos hd]
                rw [if_pos hd] at hok'
                cases hsp : splitCsi r with
                | none => rw [hsp] at hok'; simp at hok'
                | some ptr =>
                  obtain ⟨p, t, r2⟩ := ptr
                  rw [splitCsi_append u hsp]
              · rw [if_neg hd, if_neg hd]
          · rw [if_neg h3, if_neg h3]

theorem run_append_aux : ∀ (n : Nat) (f1 : List Char), f1.length ≤ n →
    ∀ (b : Buf) (f2 : List Char), clean f1 = true →
      run b (f1 ++ f2) = run (run b f1) f2 := by
  intro n
  induction n with
  | zero =>
    intro f1 h b f2 _
    have hs : f1 = [] := List.eq_nil_of_length_eq_zero (Nat.le_zero.mp h)
    subst hs
    rfl
  | succ n ih =>
    intro f1 h b f2 hc
    cases f1 with
    | nil => rfl
    | cons c rest =>
      have hclean : cleanF (rest.length + 1) (c :: rest) = true := hc
      simp only [cleanF, Bool.and_eq_true] at hclean
      obtain ⟨hok, hm⟩ := hclean
      cases hsr : stepRest c rest with
      | none => rw [hsr] at hm; simp at hm
      | some s' =>
        rw [hsr] at hm
        have hlen := stepRest_length hsr
        have hclean' : clean s' = true := by
          rw [clean, cleanF_fuel s'.length le_rfl hlen]
          exact hm
        simp only [List.length_cons] at h
        calc run b ((c :: rest) ++ f2)
            = run b (c :: (rest ++ f2)) := rfl
          _ = run (stepBuf b c (rest ++ f2)) (s' ++ f2) := by
              rw [run_cons, stepRest_append f2 hok hsr]
          _ = run (stepBuf b c rest) (s' ++ f2) := by
              rw [stepBuf_append f2 b hok]
          _ = run (run (stepBuf b c rest) s') f2 :=
              ih s' (by omega) (stepBuf b c rest) f2 hclean'
          _ = run (run b (c :: rest)) f2 := by
              rw [run_cons b c rest, hsr]

theorem run_append {f1 : List Char} (f2 : List Char) (b : Buf)
    (h : clean f1 = true) : run b (f1 ++ f2) = run (run b f1) f2 :=
  run_append_aux f1.length f1 le_rfl b f2 h

theorem runFrags_flatten : ∀ (frags : List (List Char)) (b : Buf),
    (∀ f ∈ frags, clean f = true) → runFrags b frags = run b frags.flatten := by
  intro frags
  induction frags with
  | nil => intro b _; rfl
  | cons f fs ih =>
    intro b h
    have hf : clean f = true := h f (by simp)
    have hfs : ∀ g ∈ fs, clean g = true := fun g hg => h g (by simp [hg])
    show runFrags (run b f) fs = run b (f :: fs).flatten
    rw [ih (run b f) hfs, List.flatten_cons]
    exact (run_append fs.flatten b hf).symm

/-! ## Fragment-composition lemmas for the extractor -/

theorem prefixOf_iff {l x : List Char} : l.isPrefixOf x = true ↔ l <+: x :=
  List.isPrefixOf_iff_prefix

theorem prefix_of_append_of_le {l a : List Char} (b : List Char)
    (h : l <+: a ++ b) (hl : l.length ≤ a.length) : l <+: a := by
  rw [List.prefix_iff_eq_take] at h ⊢
  rw [List.take_append_of_le_length hl] at h
  exact h

theorem findMarker_length {s r : List Char} (h : findMarker s = some r) :
    marker.length + r.length ≤ s.length := by
  induction s with
  | nil => simp [findMarker] at h
  | cons c cs ih =>
    simp only [findMarker] at h
    by_cases hp : marker.isPrefixOf (c :: cs) = true
    · rw [if_pos hp] at h
      simp only [Option.some.injEq] at h; subst h
      have hle : marker.length ≤ (c :: cs).length := (prefixOf_iff.mp hp).length_le
      simp only [List.length_drop]
      omega
    · rw [if_neg hp] at h
      have := ih h
      simp only [List.length_cons]
      omega

theorem findMarker_append {s r : List Char} (u : List Char)
    (h : findMarker s = some r) : findMarker (s ++ u) = some (r ++ u) := by
  induction s with
  | nil => simp [findMarker] at h
  | cons c cs ih =>
    simp only [findMarker] at h
    show findMarker (c :: (cs ++ u)) = _
    simp only [findMarker]
    by_cases hp : marker.isPrefixOf (c :: cs) = true
    · rw [if_pos hp] at h
      simp only [Option.some.injEq] at h; subst h
      have hpre : marker <+: (c :: cs) := prefixOf_iff.mp hp
      have hle : marker.length ≤ (c :: cs).length := hpre.length_le
      have hp2 : marker.isPrefixOf (c :: (cs ++ u)) = true :=
        prefixOf_iff.mpr (hpre.trans ((c :: cs).prefix_append u))
      rw [if_pos hp2]
      rw [show (c :: (cs ++ u)) = (c :: cs) ++ u from rfl,
        List.drop_append_of_le_length hle]
    · rw [if_neg hp] at h
      have hlen := findMarker_length h
      have hp2 : ¬ marker.isPrefixOf (c :: (cs ++ u)) = true := by
        intro hcon
        apply hp
        apply prefixOf_iff.mpr
        refine prefix_of_append_of_le u (prefixOf_iff.mp hcon) ?_
        simp only [List.length_cons]
        omega
      rw [if_neg hp2]
      exact ih h

theorem noPartial_head {c : Char} {r : List Char}
    (h : noPartialMarker (c :: r) = true) :
    (c :: r).isPrefixOf marker = false ∧ noPartialMarker r = true := by
  simp only [noPartialMarker, Bool.and_eq_true, Bool.not_eq_true'] at h
  exact h

theorem findMarker_none_append {s : List Char} (u : List Char)
    (h1 : findMarker s = none) (h2 : noPartialMarker s = true) :
    findMarker (s ++ u) = findMarker u := by
  induction s with
  | nil => rfl
  | cons c cs ih =>
    simp only [findMarker] at h1
    obtain ⟨hnp, h2'⟩ := noPartial_head h2
    by_cases hp : marker.isPrefixOf (c :: cs) = true
    · rw [if_pos hp] at h1; simp at h1
    · rw [if_neg hp] at h1
      show findMarker (c :: (cs ++ u)) = _
      simp only [findMarker]
      have hp2 : ¬ marker.isPrefixOf (c :: (cs ++ u)) = true := by
        intro hcon
        have hpre : marker <+: ((c :: cs) ++ u) := prefixOf_iff.mp hcon
        by_cases hle : marker.length ≤ (c :: cs).length
        · exact hp (prefixOf_iff.mpr (prefix_of_append_of_le u hpre hle))
        · push_neg at hle
          have h3 : (c :: cs) <+: marker :=
            List.prefix_of_prefix_length_le ((c :: cs).prefix_append u) hpre
              (Nat.le_of_lt hle)
          rw [prefixOf_iff.mpr h3] at hnp
          simp at hnp
      rw [if_neg hp2]
      exact ih h1 h2'

theorem findTerm_length {r : List Char} :
    ∀ {d r2}, findTerm r = some (d, r2) → r2.length < r.length := by
  induction r with
  | nil => intro d r2 h; simp [findTerm] at h
  | cons c cs ih =>
    intro d r2 h
    simp only [findTerm] at h
    by_cases h7 : c = '\x07'
    · rw [if_pos h7] at h
      simp only [Option.some.injEq, Prod.mk.injEq] at h
      obtain ⟨-, rfl⟩ := h; simp
    · rw [if_neg h7] at h
      by_cases he : c = '\x1b' ∧ cs.head? = some '\\'
      · rw [if_pos he] at h
        simp only [Option.some.injEq, Prod.mk.injEq] at h
        obtain ⟨-, rfl⟩ := h
        have : cs.tail.length ≤ cs.length := by cases cs <;> simp
        simp only [List.length_cons]; omega
      · rw [if_neg he] at h
        cases hft : findTerm cs with
        | none => rw [hft] at h; simp at h
        | some pr =>
          obtain ⟨d', r2'⟩ := pr
          rw [hft] at h
          simp only [Option.some.injEq, Prod.mk.injEq] at h
          obtain ⟨-, rfl⟩ := h
          exact Nat.lt_succ_of_lt (ih hft)

theorem findTerm_append {r : List Char} (u : List Char) :
    ∀ {d r2}, findTerm r = some (d, r2) →
      findTerm (r ++ u) = some (d, r2 ++ u) := by
  induction r with
  | nil => intro d r2 h; simp [findTerm] at h
  | cons c cs ih =>
    intro d r2 h
    simp only [findTerm] at h
    show findTerm (c :: (cs ++ u)) = _
    simp only [findTerm]
    by_cases h7 : c = '\x07'
    · rw [if_pos h7] at h ⊢
      simp only [Option.some.injEq, Prod.mk.injEq] at h
      obtain ⟨rfl, rfl⟩ := h; rfl
    · rw [if_neg h7] at h ⊢
      by_cases he : c = '\x1b' ∧ cs.head? = some '\\'
      · obtain ⟨he1, he2⟩ := he
        cases cs with
        | nil => simp at he2
        | cons e et =>
          simp only [List.head?_cons, Option.some.injEq] at he2
          subst he2
          rw [if_pos ⟨he1, rfl⟩] at h
          rw [if_pos ⟨he1, by simp⟩]
          simp only [Option.some.injEq, Prod.mk.injEq] at h
          obtain ⟨rfl, rfl⟩ := h
          rfl
      · rw [if_neg he] at h
        have hne : ¬(c = '\x1b' ∧ (cs ++ u).head? = some '\\') := by
          rintro ⟨hc, hh⟩
          cases cs with
          | nil => simp [findTerm] at h
          | cons e et =>
            simp only [List.cons_append, List.head?_cons, Option.some.injEq] at hh
            exact he ⟨hc, by simp [hh]⟩
        rw [if_neg hne]
        cases hft : findTerm cs with
        | none => rw [hft] at h; simp at h
        | some pr =>
          obtain ⟨d', r2'⟩ := pr
          rw [hft] at h
          simp only [Option.some.injEq, Prod.mk.injEq] at h
          obtain ⟨rfl, rfl⟩ := h
          rw [ih hft]

theorem extractDirsF_none {s : List Char} (h : findMarker s = none) (n : Nat) :
    extractDirsF n s = [] := by
  cases n with
  | zero => rfl
  | succ n => simp only [extractDirsF, h]

theorem extractCleanF_of_none {s : List Char} (h : findMarker s = none) (n : Nat) :
    extractCleanF n s = noPartialMarker s := by
  cases n with
  | zero => rfl
  | succ n => simp only [extractCleanF, h]

theorem extractDirsF_fuel : ∀ (n : Nat) {m : Nat} {s : List Char},
    s.length ≤ n → s.length ≤ m → extractDirsF n s = extractDirsF m s := by
  intro n
  induction n with
  | zero =>
    intro m s hn _
    have hs : s = [] := List.eq_nil_of_length_eq_zero (Nat.le_zero.mp hn)
    subst hs
    rw [extractDirsF_none (s := []) rfl, extractDirsF_none (s := []) rfl]
  | succ n ih =>
    intro m s hn hm
    cases hfm : findMarker s with
    | none => rw [extractDirsF_none hfm, extractDirsF_none hfm]
    | some r =>
      have hml := findMarker_length hfm
      have hm18 : marker.length = 18 := rfl
      obtain ⟨m', rfl⟩ : ∃ m', m = m' + 1 := ⟨m - 1, by omega⟩
      simp only [extractDirsF, hfm]
      cases hft : findTerm r with
      | none => rfl
      | some pr =>
        obtain ⟨d, r2⟩ := pr
        have hfl := findTerm_length hft
        show d :: extractDirsF n r2 = d :: extractDirsF m' r2
        rw [ih (m := m') (s := r2) (by omega) (by omega)]

theorem extractCleanF_fuel : ∀ (n : Nat) {m : Nat} {s : List Char},
    s.length ≤ n → s.length ≤ m → extractCleanF n s = extractCleanF m s := by
  intro n
  induction n with
  | zero =>
    intro m s hn _
    have hs : s = [] := List.eq_nil_of_length_eq_zero (Nat.le_zero.mp hn)
    subst hs
    rw [extractCleanF_of_none (s := []) rfl, extractCleanF_of_none (s := []) rfl]
  | succ n ih =>
    intro m s hn hm
    cases hfm : findMarker s with
    | none => rw [extractCleanF_of_none hfm, extractCleanF_of_none hfm]
    | some r =>
      have hml := findMarker_length hfm
      have hm18 : marker.length = 18 := rfl
      obtain ⟨m', rfl⟩ : ∃ m', m = m' + 1 := ⟨m - 1, by omega⟩
      simp only [extractCleanF, hfm]
      cases hft : findTerm r with
      | none => rfl
      | some pr =>
        obtain ⟨d, r2⟩ := pr
        have hfl := findTerm_length hft
        show extractCleanF n r2 = extractCleanF m' r2
        rw [ih (m := m') (s := r2) (by omega) (by omega)]

theorem extractDirsF_congr_head {s1 s2 : List Char} {n m : Nat}
    (h : findMarker s1 = findMarker s2) (h1 : s1.length ≤ n)
    (h2 : s2.length ≤ m) : extractDirsF n s1 = extractDirsF m s2 := by
  cases hfm : findMarker s1 with
  | none => rw [extractDirsF_none hfm, extractDirsF_none (h.symm.trans hfm)]
  | some r =>
    have hfm2 : findMarker s2 = some r := h.symm.trans hfm
    have hml1 := findMarker_length hfm
    have hml2 := findMarker_length hfm2
    have hm18 : marker.length = 18 := rfl
    obtain ⟨n', rfl⟩ : ∃ k, n = k + 1 := ⟨n - 1, by omega⟩
    obtain ⟨m', rfl⟩ : ∃ k, m = k + 1 := ⟨m - 1, by omega⟩
    simp only [extractDirsF, hfm, hfm2]
    cases hft : findTerm r with
    | none => rfl
    | some pr =>
      obtain ⟨d, r2⟩ := pr
      have hfl := findTerm_length hft
      show d :: extractDirsF n' r2 = d :: extractDirsF m' r2
      rw [extractDirsF_fuel n' (m := m') (s := r2) (by omega) (by omega)]

theorem extract_append_aux : ∀ (n : Nat) (f1 : List Char), f1.length ≤ n →
    ∀ (f2 : List Char), extractClean f1 = true →
      extractDirs (f1 ++ f2) = extractDirs f1 ++ extractDirs f2 := by
  intro n
  induction n with
  | zero =>
    intro f1 h f2 _
    have hs : f1 = [] := List.eq_nil_of_length_eq_zero (Nat.le_zero.mp h)
    subst hs
    rfl
  | succ n ih =>
    intro f1 h f2 hc
    cases hfm : findMarker f1 with
    | none =>
      have hnp : noPartialMarker f1 = true := by
        rw [extractClean, extractCleanF_of_none hfm] at hc
        exact hc
      have hfm2 : findMarker (f1 ++ f2) = findMarker f2 :=
        findMarker_none_append f2 hfm hnp
      have e1 : extractDirs f1 = [] := extractDirsF_none hfm _
      have e2 : extractDirs (f1 ++ f2) = extractDirs f2 := by
        show extractDirsF (f1 ++ f2).length (f1 ++ f2) = extractDirsF f2.length f2
        exact extractDirsF_congr_head hfm2 le_rfl le_rfl
      rw [e1, e2, List.nil_append]
    | some r =>
      have hml := findMarker_length hfm
      have hm18 : marker.length = 18 := rfl
      obtain ⟨k, hk⟩ : ∃ k, f1.length = k + 1 := ⟨f1.length - 1, by omega⟩
      have hc' : extractCleanF (k + 1) f1 = true := by rw [← hk]; exact hc
      simp only [extractCleanF, hfm] at hc'
      cases hft : findTerm r with
      | none => rw [hft] at hc'; simp at hc'
      | some pr =>
        obtain ⟨d, r2⟩ := pr
        rw [hft] at hc'
        have hfl := findTerm_length hft
        have hcr2 : extractClean r2 = true := by
          rw [extractClean, extractCleanF_fuel r2.length (m := k) le_rfl (by omega)]
          exact hc'
        have e1 : extractDirs f1 = d :: extractDirs r2 := by
          show extractDirsF f1.length f1 = _
          rw [hk]
          simp only [extractDirsF, hfm, hft]
          show d :: extractDirsF k r2 = d :: extractDirs r2
          rw [extractDirsF_fuel k (m := r2.length) (s := r2) (by omega) le_rfl]
          rfl
        have e2 : extractDirs (f1 ++ f2) = d :: extractDirs (r2 ++ f2) := by
          show extractDirsF (f1 ++ f2).length (f1 ++ f2) = _
          have hlen2 : (f1 ++ f2).length = (k + f2.length) + 1 := by
            simp only [List.length_append, hk]
            omega
          rw [hlen2]
          simp only [extractDirsF, findMarker_append f2 hfm, findTerm_append f2 hft]
          show d :: extractDirsF (k + f2.length) (r2 ++ f2) =
            d :: extractDirs (r2 ++ f2)
          rw [extractDirsF_fuel (k + f2.length) (m := (r2 ++ f2).length)
            (s := r2 ++ f2) (by simp only [List.length_append]; omega) le_rfl]
          rfl
        rw [e1, e2, ih r2 (by omega) f2 hcr2]
        rfl

theorem extract_append {f1 : List Char} (f2 : List Char)
    (h : extractClean f1 = true) :
    extractDirs (f1 ++ f2) = extractDirs f1 ++ extractDirs f2 :=
  extract_append_aux f1.length f1 le_rfl f2 h

theorem extractFrags_flatten : ∀ (frags : List (List Char)),
    (∀ f ∈ frags, extractClean f = true) →
      extractFrags frags = extractDirs frags.flatten := by
  intro frags
  induction frags with
  | nil => intro _; rfl
  | cons f fs ih =>
    intro h
    show extractDirs f ++ extractFrags fs = extractDirs (f :: fs).flatten
    rw [List.flatten_cons, extract_append fs.flatten (h f (by simp)),
      ih (fun g hg => h g (by simp [hg]))]

/-! ## Unfolding lemmas for escape sequences -/

theorem run_csi (b : Buf) {r p : List Char} {t : Char} {r2 : List Char}
    (h : splitCsi r = some (p, t, r2)) :
    run b ('\x1b' :: '[' :: r) = run (csiDispatch b p t) r2 := by
  rw [run_cons]
  have hsr : stepRest '\x1b' ('[' :: r) = some r2 := by
    unfold stepRest
    rw [if_neg (by decide), if_neg (by decide), if_pos rfl]
    show (if '[' = '[' then
        (match splitCsi r with
         | none => none
         | some (_, _, r2) => some r2)
        else if '[' = ']' then oscSkip r else some r) = some r2
    rw [if_pos rfl, h]
  have hsb : stepBuf b '\x1b' ('[' :: r) = csiDispatch b p t := by
    unfold stepBuf
    rw [if_neg (by decide), if_neg (by decide), if_neg (by decide),
      if_neg (by decide), if_pos rfl]
    show (if '[' = '[' then
        (match splitCsi r with
         | none => b
         | some (p, t, _) => csiDispatch b p t)
        else b) = csiDispatch b p t
    rw [if_pos rfl, h]
  rw [hsr, hsb]

theorem run_csi_truncated (b : Buf) {r : List Char} (h : splitCsi r = none) :
    run b ('\x1b' :: '[' :: r) = b := by
  rw [run_cons]
  have hsr : stepRest '\x1b' ('[' :: r) = none := by
    unfold stepRest
    rw [if_neg (by decide), if_neg (by decide), if_pos rfl]
    show (if '[' = '[' then
        (match splitCsi r with
         | none => none
         | some (_, _, r2) => some r2)
        else if '[' = ']' then oscSkip r else some r) = none
    rw [if_pos rfl, h]
  rw [hsr]

theorem run_osc (b : Buf) {r r2 : List Char} (h : oscSkip r = some r2) :
    run b ('\x1b' :: ']' :: r) = run b r2 := by
  rw [run_cons]
  have hsr : stepRest '\x1b' (']' :: r) = some r2 := by
    unfold stepRest
    rw [if_neg (by decide), if_neg (by decide), if_pos rfl]
    show (if ']' = '[' then
        (match splitCsi r with
         | none => none
         | some (_, _, r2) => some r2)
        else if ']' = ']' then oscSkip r else some r) = some r2
    rw [if_neg (by decide), if_pos rfl, h]
  have hsb : stepBuf b '\x1b' (']' :: r) = b := by
    unfold stepBuf
    rw [if_neg (by decide), if_neg (by decide), if_neg (by decide),
      if_neg (by decide), if_pos rfl]
    show (if ']' = '[' then
        (match splitCsi r with
         | none => b
         | some (p, t, _) => csiDispatch b p t)
        else b) = b
    rw [if_neg (by decide)]
  rw [hsr, hsb]

theorem run_esc_other (b : Buf) {e : Char} {r : List Char}
    (h1 : e ≠ '[') (h2 : e ≠ ']') :
    run b ('\x1b' :: e :: r) = run b r := by
  rw [run_cons]
  have hsr : stepRest '\x1b' (e :: r) = some r := by
    unfold stepRest
    rw [if_neg (by decide), if_neg (by decide), if_pos rfl]
    show (if e = '[' then
        (match splitCsi r with
         | none => none
         | some (_, _, r2) => some r2)
        else if e = ']' then oscSkip r else some r) = some r
    rw [if_neg h1, if_neg h2]
  have hsb : stepBuf b '\x1b' (e :: r) = b := by
    unfold stepBuf
    rw [if_neg (by decide), if_neg (by decide), if_neg (by decide),
      if_neg (by decide), if_pos rfl]
    show (if e = '[' then
        (match splitCsi r with
         | none => b
         | some (p, t, _) => csiDispatch b p t)
        else b) = b
    rw [if_neg h1]
  rw [hsr, hsb]

theorem splitCsi_params_term {params : List Char} {t : Char}
    (hp : ∀ x ∈ params, x.isAlpha = false) (ht : t.isAlpha = true) :
    splitCsi (params ++ [t]) = some (params, t, []) := by
  induction params with
  | nil =>
    show splitCsi [t] = _
    simp only [splitCsi]
    rw [if_pos ht]
  | cons c cs ih =>
    have hc : c.isAlpha = false := hp c (by simp)
    show splitCsi (c :: (cs ++ [t])) = _
    simp only [splitCsi]
    rw [if_neg (by simp [hc]), ih (fun x hx => hp x (by simp [hx]))]

theorem splitCsi_params_none {params : List Char}
    (hp : ∀ x ∈ params, x.isAlpha = false) : splitCsi params = none := by
  induction params with
  | nil => rfl
  | cons c cs ih =>
    have hc : c.isAlpha = false := hp c (by simp)
    simp only [splitCsi]
    rw [if_neg (by simp [hc]), ih (fun x hx => hp x (by simp [hx]))]

theorem csiDispatch_other (b : Buf) (p : List Char) {t : Char}
    (h : t ∉ (['K', 'J', 'H', 'f'] : List Char)) : csiDispatch b p t = b := by
  simp only [List.mem_cons, List.mem_singleton, not_or] at h
  obtain ⟨hK, hJ, hH, hf⟩ := h
  unfold csiDispatch
  rw [if_neg hK, if_neg hJ, if_neg (by simp [hH, hf])]

/-! ## Claims -/

/-- C1, counterexample: fragmentation is NOT invariant.  Splitting the
stream `ESC [ 2 J` after the `ESC` makes the interpreter drop the lone
`ESC` at the fragment end and then render `[2J` as literal text instead
of clearing the screen, and splitting a directory report inside its
marker makes the fragment-local extractor drop the event entirely. -/
theorem frag_split_cex :
    runFrags ⟨[['x']], ⟨0, 1⟩⟩ [['\x1b'], ['[', '2', 'J']] ≠
      run ⟨[['x']], ⟨0, 1⟩⟩ (['\x1b'] ++ ['[', '2', 'J']) ∧
    extractFrags ["\x1b]1337;".toList, "CurrentDir=/a\x07".toList] ≠
      extractDirs ("\x1b]1337;".toList ++ "CurrentDir=/a\x07".toList) := by
  decide

/-- C1, amended: feeding fragments one at a time yields the same final
screen buffer and the same directory-change events as processing the
whole stream, provided every fragment is 7-bit ASCII (the range on
which the embedding of the code's Unicode-wide `str.isalpha()` CSI
terminator test is exact) and self-contained: no fragment boundary
splits an escape sequence, a `\b SP \b` erase-coalescing window, or a
directory report.  (The code keeps no parser state across fragments, so
boundaries inside a sequence change the result, per the
counterexample.) -/
theorem frag_invariance (b : Buf) (frags : List (List Char))
    (h : ∀ f ∈ frags,
      ascii7 f = true ∧ clean f = true ∧ extractClean f = true) :
    runFrags b frags = run b frags.flatten ∧
    extractFrags frags = extractDirs frags.flatten :=
  ⟨runFrags_flatten frags b (fun f hf => (h f hf).2.1),
   extractFrags_flatten frags (fun f hf => (h f hf).2.2)⟩

/-- Witness for the amended C1 at a concrete three-fragment stream. -/
theorem frag_invariance_witness :
    (∀ f ∈ [['a', 'b'], '\x1b' :: "[2J".toList,
        "\x1b]1337;CurrentDir=/a\x07".toList],
      ascii7 f = true ∧ clean f = true ∧ extractClean f = true) ∧
    (runFrags ⟨[[]], ⟨0, 0⟩⟩ [['a', 'b'], '\x1b' :: "[2J".toList,
        "\x1b]1337;CurrentDir=/a\x07".toList] =
      run ⟨[[]], ⟨0, 0⟩⟩ ([['a', 'b'], '\x1b' :: "[2J".toList,
        "\x1b]1337;CurrentDir=/a\x07".toList] : List (List Char)).flatten ∧
    extractFrags [['a', 'b'], '\x1b' :: "[2J".toList,
        "\x1b]1337;CurrentDir=/a\x07".toList] =
      extractDirs ([['a', 'b'], '\x1b' :: "[2J".toList,
        "\x1b]1337;CurrentDir=/a\x07".toList] : List (List Char)).flatten) :=
  ⟨by decide, frag_invariance ⟨[[]], ⟨0, 0⟩⟩ _ (by decide)⟩

/-- C2, counterexample: with the cursor at column 0 of a non-first
line, a backspace does change the buffer - `cursor.position() > 0`
holds there, so `deletePreviousChar` removes the block separator and
joins the line with the previous one. -/
theorem bsp_col0_cex :
    (⟨[['a'], []], ⟨1, 0⟩⟩ : Buf).cur.col = 0 ∧
    run ⟨[['a'], []], ⟨1, 0⟩⟩ ['\x08'] = ⟨[['a']], ⟨0, 1⟩⟩ ∧
    run ⟨[['a'], []], ⟨1, 0⟩⟩ ['\x08'] ≠ ⟨[['a'], []], ⟨1, 0⟩⟩ := by
  decide

/-- C2, amended: `\b`/DEL deletes the character immediately before the
cursor's global document position whenever that position is positive:
at column > 0 it deletes the preceding character of the line; at
column 0 of a non-first line it joins the line with the previous one
(the deleted character is the block separator); the buffer is unchanged
only with the cursor at line 0, column 0. -/
theorem bsp_global_position (b : Buf) :
    run b ['\x08'] =
      if 0 < b.cur.col then
        ⟨b.lines.set b.cur.line ((curLine b).eraseIdx (b.cur.col - 1)),
         ⟨b.cur.line, b.cur.col - 1⟩⟩
      else if 0 < b.cur.line then
        ⟨b.lines.take (b.cur.line - 1)
           ++ [b.lines.getD (b.cur.line - 1) [] ++ curLine b]
           ++ b.lines.drop (b.cur.line + 1),
         ⟨b.cur.line - 1, (b.lines.getD (b.cur.line - 1) []).length⟩⟩
      else b :=
  rfl

/-- C3: `ESC [ 3 ; 5 H` on a two-line buffer appends one empty line
(so the buffer reaches 3 lines) and puts the cursor on line index 2
with the column clamped into that (empty) line's bounds, i.e. at
`min 4 (length of line 2)`. -/
theorem cup_row3_col5 (l0 l1 : List Char) (cu : Cursor) :
    run ⟨[l0, l1], cu⟩ ['\x1b', '[', '3', ';', '5', 'H'] =
      ⟨[l0, l1, []], ⟨2, min 4 (List.length ([] : List Char))⟩⟩ :=
  rfl

/-- C5: `\r\n` and `\n` produce identical buffers from every starting
state - the line feed first moves the cursor to the end of the line, so
the preceding carriage return's column reset is immaterial. -/
theorem crlf_eq_lf (b : Buf) : run b ['\x0d', '\x0a'] = run b ['\x0a'] :=
  rfl

/-- C6: writing a printable character over an existing character
replaces it in place and advances the cursor; writing at or past the
end of the line's content appends. -/
theorem write_overwrite (b : Buf) (c : Char)
    (h : c ∉ (['\x0d', '\x0a', '\x08', '\x7f', '\x07', '\x1b', sepChar] :
      List Char)) :
    run b [c] =
      if b.cur.col < (curLine b).length then
        ⟨b.lines.set b.cur.line ((curLine b).set b.cur.col c),
         ⟨b.cur.line, b.cur.col + 1⟩⟩
      else
        ⟨b.lines.set b.cur.line (curLine b ++ [c]),
         ⟨b.cur.line, b.cur.col + 1⟩⟩ := by
  simp only [List.mem_cons, List.mem_singleton, not_or] at h
  obtain ⟨hcr, hlf, hb1, hb2, hbel, hesc, hsep, -⟩ := h
  have h1 : ¬(c = '\x0d' ∨ c = '\x0a' ∨ c = '\x07') := by
    push_neg
    exact ⟨hcr, hlf, hbel⟩
  have h2 : ¬ isBsp c = true := by
    simp [isBsp, hb1, hb2]
  have hsr : stepRest c [] = some [] := by
    unfold stepRest
    rw [if_neg h1, if_neg h2, if_neg hesc]
  have hsb : stepBuf b c [] = writeOp b c := by
    unfold stepBuf
    rw [if_neg hcr, if_neg hlf, if_neg h2, if_neg hbel, if_neg hesc]
  rw [run_cons b c [], hsr, hsb]
  show writeOp b c = _
  simp only [writeOp]
  rw [if_neg hsep]

/-- Witness for C6 at the spec's example: line `abc`, cursor at
column 1, writing `Z` yields `aZc` with the cursor at column 2. -/
theorem write_overwrite_witness :
    ('Z' ∉ (['\x0d', '\x0a', '\x08', '\x7f', '\x07', '\x1b', sepChar] :
      List Char)) ∧
    run ⟨[['a', 'b', 'c']], ⟨0, 1⟩⟩ ['Z'] = ⟨[['a', 'Z', 'c']], ⟨0, 2⟩⟩ :=
  ⟨by decide,
   (write_overwrite ⟨[['a', 'b', 'c']], ⟨0, 1⟩⟩ 'Z' (by decide)).trans
     (by decide)⟩

/-- C7: on the fragment `a ESC ]1337;CurrentDir=/tmp/x BEL b` the
extractor yields exactly the one directory `/tmp/x`, and the
interpreter renders exactly `ab` - no character of the OSC payload
reaches the screen. -/
theorem osc_dir_report :
    extractDirs
        ('a' :: '\x1b' :: ']' ::
          ("1337;CurrentDir=/tmp/x".toList ++ ['\x07', 'b'])) =
      ["/tmp/x".toList] ∧
    run ⟨[[]], ⟨0, 0⟩⟩
        ('a' :: '\x1b' :: ']' ::
          ("1337;CurrentDir=/tmp/x".toList ++ ['\x07', 'b'])) =
      ⟨[['a', 'b']], ⟨0, 2⟩⟩ := by
  decide

/-- C8: the interpreter is total by construction (`run` is a total
function), and malformed, unrecognized or truncated escape sequences
leave the buffer unchanged: a CSI sequence whose parameters are ASCII
non-letters (the range on which `Char.isAlpha` coincides with the
code's Unicode-wide `str.isalpha()`) and whose alphabetic terminator is
unrecognized is a no-op, a CSI sequence that never terminates inside
the fragment is dropped, a bare trailing `ESC` is dropped, and `ESC`
followed by any character other than `[` or `]` is a no-op. -/
theorem interp_unrecognized (b : Buf) (params : List Char) (t e : Char)
    (hp : ∀ x ∈ params, x.toNat < 128 ∧ x.isAlpha = false)
    (ht : t.isAlpha = true)
    (htn : t ∉ (['K', 'J', 'H', 'f'] : List Char))
    (he1 : e ≠ '[') (he2 : e ≠ ']') :
    run b ('\x1b' :: '[' :: (params ++ [t])) = b ∧
    run b ('\x1b' :: '[' :: params) = b ∧
    run b ['\x1b'] = b ∧
    run b ['\x1b', e] = b := by
  refine ⟨?_, ?_, rfl, ?_⟩
  · rw [run_csi b (splitCsi_params_term (fun x hx => (hp x hx).2) ht),
      csiDispatch_other b params htn]
    rfl
  · rw [run_csi_truncated b (splitCsi_params_none (fun x hx => (hp x hx).2))]
  · rw [run_esc_other b he1 he2]
    rfl

/-- Witness for C8: `ESC [ 3 8 m` (an SGR color sequence, not handled),
a truncated `ESC [ 3 8`, a bare `ESC`, and `ESC X`, all on a concrete
buffer. -/
theorem interp_unrecognized_witness :
    ((∀ x ∈ (['3', '8'] : List Char), x.toNat < 128 ∧ x.isAlpha = false) ∧
      Char.isAlpha 'm' = true ∧
      'm' ∉ (['K', 'J', 'H', 'f'] : List Char) ∧
      'X' ≠ '[' ∧ 'X' ≠ ']') ∧
    (run ⟨[['h', 'i']], ⟨0, 2⟩⟩ ('\x1b' :: '[' :: (['3', '8'] ++ ['m'])) =
        ⟨[['h', 'i']], ⟨0, 2⟩⟩ ∧
      run ⟨[['h', 'i']], ⟨0, 2⟩⟩ ('\x1b' :: '[' :: ['3', '8']) =
        ⟨[['h', 'i']], ⟨0, 2⟩⟩ ∧
      run ⟨[['h', 'i']], ⟨0, 2⟩⟩ ['\x1b'] = ⟨[['h', 'i']], ⟨0, 2⟩⟩ ∧
      run ⟨[['h', 'i']], ⟨0, 2⟩⟩ ['\x1b', 'X'] = ⟨[['h', 'i']], ⟨0, 2⟩⟩) :=
  ⟨⟨by decide, by decide, by decide, by decide, by decide⟩,
   interp_unrecognized ⟨[['h', 'i']], ⟨0, 2⟩⟩ ['3', '8'] 'm' 'X'
     (by decide) (by decide) (by decide) (by decide) (by decide)⟩

/-- C9: `send_command` with `add_newline = False` writes exactly the
given text to the PTY (no terminator appended) and emits no
command-submitted event. -/
theorem send_command_raw (command : List Char)
    (h : endsWithNL command = false) :
    send_command command false = (command, []) := by
  unfold send_command
  simp

/-- Witness for C9 on the command `ls`. -/
theorem send_command_raw_witness :
    endsWithNL ("ls".toList) = false ∧
    send_command ("ls".toList) false = ("ls".toList, []) :=
  ⟨by decide, send_command_raw ("ls".toList) (by decide)⟩

/-- C10: the copy/interrupt binding with an active selection writes no
byte to the PTY and leaves the command buffer unchanged; without a
selection it writes the single interrupt byte 0x03 and clears the
buffer, emitting no command event in either case. -/
theorem ctrl_c_frame (buf : List Char) :
    keyPressEvent buf (KeyInput.copy true) = ⟨[], buf, []⟩ ∧
    keyPressEvent buf (KeyInput.copy false) = ⟨['\x03'], [], []⟩ :=
  ⟨rfl, rfl⟩

/-- C4, counterexample: pasting text containing a control character
(here a newline) puts that control character into the command buffer -
the paste branch appends the clipboard text verbatim. -/
theorem buffer_ctrl_cex :
    ¬ (∀ c ∈ (keyPressEvent [] (KeyInput.paste ['\x0a'])).buffer,
      isCtrl c = false) := by
  decide

/-- C4, amended: the command buffer stays free of control characters
under every input operation provided the typed text and pasted text
payloads are themselves control-free; control characters in a paste (or
in a key's text payload) enter the buffer verbatim, per the
counterexample. -/
theorem buffer_ctrl_free (buf : List Char) (e : KeyInput)
    (hb : buf.all (fun c => !(isCtrl c)) = true)
    (he : inputCtrlFree e = true) :
    ((keyPressEvent buf e).buffer).all (fun c => !(isCtrl c)) = true := by
  cases e with
  | copy sel => cases sel <;> simp [keyPressEvent, hb]
  | paste t =>
    have he' : t.all (fun c => !(isCtrl c)) = true := he
    by_cases ht : t = []
    · simp [keyPressEvent, ht, hb]
    · simp only [keyPressEvent, if_neg ht]
      rw [List.all_append, hb, he']
      rfl
  | enter => simp [keyPressEvent]
  | backspace =>
    simp only [keyPressEvent]
    simp only [List.all_eq_true] at hb ⊢
    intro c hc
    exact hb c ((List.dropLast_sublist buf).subset hc)
  | special k => simpa [keyPressEvent] using hb
  | text t =>
    have he' : t.all (fun c => !(isCtrl c)) = true := he
    by_cases ht : t = []
    · simp [keyPressEvent, ht, hb]
    · simp only [keyPressEvent, if_neg ht]
      rw [List.all_append, hb, he']
      rfl

/-- Witness for the amended C4: buffer `ls`, typing `a`. -/
theorem buffer_ctrl_free_witness :
    (("ls".toList).all (fun c => !(isCtrl c)) = true ∧
      inputCtrlFree (KeyInput.text ['a']) = true) ∧
    ((keyPressEvent ("ls".toList) (KeyInput.text ['a'])).buffer).all
      (fun c => !(isCtrl c)) = true :=
  ⟨⟨by decide, by decide⟩,
   buffer_ctrl_free ("ls".toList) (KeyInput.text ['a']) (by decide) (by decide)⟩

end DirShell
